import Mathlib

/-!
Verification development for the neural text-to-speech subsystem of the
`pastel-hn` repository (directory `src-tauri/src/tts/neural/`).

The Rust code is shallowly embedded:

* text is modelled as `List Char`; `String` appears where the Rust code
  passes whole sentences around.  Rust's `str::len` is a byte count; for
  the ASCII inputs exercised here it coincides with the character count
  used in the embedding.
* machine integers (`u64`, `usize`) become `Nat`; `f32` hyperparameters
  become `ℚ` with exact arithmetic (the clamp bounds 0.5 and 2.0 and the
  scale values used in the theorems below are exactly representable, so
  the rational model agrees with the float computation at every input
  considered).
* the filesystem is a map from relative paths to optional byte contents,
  plus a directory-existence map; the network is a map from URLs to an
  optional list of streamed chunks; the external `espeak-ng` process and
  the ONNX inference session are oracles passed as parameters.
* fallible Rust functions returning `Result` become `Except`.
-/

/-- Unicode whitespace as decided by Rust's `char::is_whitespace`
(used by `str::trim`, `char::is_whitespace` in `phonemes_to_ids`, and
sentence trimming in `chunk_text`). -/
def rust_is_whitespace (c : Char) : Bool :=
  c == ' ' || c == '\t' || c == '\n' || c == '\r' ||
  c.toNat == 0x0B || c.toNat == 0x0C || c.toNat == 0x85 || c.toNat == 0xA0 ||
  c.toNat == 0x1680 || (0x2000 ≤ c.toNat && c.toNat ≤ 0x200A) ||
  c.toNat == 0x2028 || c.toNat == 0x2029 || c.toNat == 0x202F ||
  c.toNat == 0x205F || c.toNat == 0x3000

/-- Rust `str::trim`: strip leading and trailing whitespace. -/
def trim_chars (l : List Char) : List Char :=
  ((l.dropWhile rust_is_whitespace).reverse.dropWhile rust_is_whitespace).reverse

/-- Rust `text.split(['.', '!', '?'])`: split into the (possibly empty)
pieces between sentence terminators. -/
def split_on_seps : List Char → List (List Char)
  | [] => [[]]
  | c :: rest =>
    if c == '.' || c == '!' || c == '?' then
      [] :: split_on_seps rest
    else
      match split_on_seps rest with
      | [] => [[c]]
      | p :: ps => (c :: p) :: ps

/-- The sentence list built at the top of `NeuralTtsEngine::chunk_text`:
split on terminators, trim each piece, drop empties, re-append a period. -/
def sentencesOf (text : List Char) : List (List Char) :=
  (((split_on_seps text).map trim_chars).filter (· ≠ [])).map (· ++ ['.'])

/-- The sentence-combining loop of `NeuralTtsEngine::chunk_text`
(`MAX_CHUNK_SIZE = 500`).  Arguments: remaining sentences, chunks
accumulated so far, the current chunk being built. -/
def chunk_loop : List (List Char) → List (List Char) → List Char → List (List Char)
  | [], chunks, current =>
    if current = [] then chunks else chunks ++ [trim_chars current]
  | s :: rest, chunks, current =>
    if s.length > 500 then
      let chunks1 := if current = [] then chunks else chunks ++ [trim_chars current]
      chunk_loop rest (chunks1 ++ [s]) []
    else if current.length + s.length + 1 > 500 then
      let chunks1 := if current = [] then chunks else chunks ++ [trim_chars current]
      chunk_loop rest chunks1 s
    else
      chunk_loop rest chunks (if current = [] then s else current ++ ' ' :: s)

/-- `NeuralTtsEngine::chunk_text`: split text into ≤500-character chunks on
sentence boundaries; if no chunks were produced and the text is non-empty,
return the original text as the single chunk. -/
def chunk_text (text : List Char) : List (List Char) :=
  let cs := chunk_loop (sentencesOf text) [] []
  if cs = [] ∧ text ≠ [] then [text] else cs

/-- Rust `text.replace("  ", " ")`: one left-to-right pass replacing each
non-overlapping double space by a single space. -/
def collapse_double_space : List Char → List Char
  | ' ' :: ' ' :: rest => ' ' :: collapse_double_space rest
  | c :: rest => c :: collapse_double_space rest
  | [] => []

/-- Matcher for the scheme part of the URL regex `https?://\S+` used in
`preprocess_text`: if the list starts with `https://` or `http://`,
return the remainder.  The alternation tries the longer scheme first,
as the regex engine does for a greedy optional `s?`. -/
def scheme_rest : List Char → Option (List Char)
  | 'h' :: 't' :: 't' :: 'p' :: 's' :: ':' :: '/' :: '/' :: r => some r
  | 'h' :: 't' :: 't' :: 'p' :: ':' :: '/' :: '/' :: r => some r
  | _ => none

/-- Worker for URL removal.  The `fuel` argument only serves termination:
every recursive call consumes at least one character, and the function is
always invoked with `fuel = l.length`, so the `0` case never truncates the
scan.  (A fuel parameter keeps the definition structurally recursive, so
it reduces definitionally.) -/
def remove_urls_go : Nat → List Char → List Char
  | 0, l => l
  | _ + 1, [] => []
  | fuel + 1, c :: rest =>
    match scheme_rest (c :: rest) with
    | some r =>
      if r.takeWhile (fun x => !rust_is_whitespace x) = [] then
        c :: remove_urls_go fuel rest
      else
        remove_urls_go fuel (r.dropWhile (fun x => !rust_is_whitespace x))
    | none => c :: remove_urls_go fuel rest

/-- Rust `url_regex.replace_all(&text, "")` with `url_regex = https?://\S+`:
delete every maximal URL-shaped substring (scheme followed by at least one
non-whitespace character). -/
def remove_urls (l : List Char) : List Char := remove_urls_go l.length l

/-- `NeuralTtsEngine::preprocess_text`: newlines/tabs to spaces, collapse
double spaces, strip URLs, trim.  (The Rust function returns `Ok` on every
input, so the embedding is a plain function.) -/
def preprocess_text (l : List Char) : List Char :=
  trim_chars (remove_urls (collapse_double_space
    (l.map (fun c => if c == '\n' || c == '\t' then ' ' else c))))

/-- `SynthesisError` from `synth.rs`. -/
inductive SynthErr where
  | ModelNotLoaded (msg : String)
  | InferenceError (msg : String)
  | InvalidInput (msg : String)
  | AudioError (msg : String)
  | PhonemeError (msg : String)
  | ConfigError (msg : String)
deriving DecidableEq

/-- Lookup in the phoneme-ID map (`HashMap<String, Vec<i64>>` in the
source, embedded as an association list). -/
def pm_lookup (m : List (String × List Int)) (k : String) : Option (List Int) :=
  (m.find? (fun e => e.1 == k)).map (·.2)

/-- `PiperConfig` parsed from the model's JSON descriptor (sample rate,
espeak voice, the three inference hyperparameters, and the phoneme-ID map). -/
structure PiperConfigE where
  sample_rate : Nat
  espeak_voice : String
  noise_scale : ℚ
  length_scale : ℚ
  noise_w : ℚ
  phoneme_id_map : List (String × List Int)

/-- The per-character step of the loop in
`NeuralTtsEngine::phonemes_to_ids`: a directly mapped symbol emits its
IDs, an unmapped whitespace character emits the map's space entry (if
any), an unmapped newline or unknown symbol is skipped; every emitted
symbol (including mapped whitespace) is followed by the blank IDs. -/
def p2i_step (m : List (String × List Int)) (blank_ids : List Int)
    (acc : List Int) (ch : Char) : List Int :=
  match pm_lookup m (String.singleton ch) with
  | some pids => acc ++ pids ++ blank_ids
  | none =>
    if rust_is_whitespace ch then
      acc ++ (pm_lookup m " ").getD [] ++ blank_ids
    else if ch == '\n' then acc
    else acc

/-- `NeuralTtsEngine::phonemes_to_ids`: emit the start sentinel `^` IDs
(if present), the blank `_` IDs, the per-character IDs with a blank block
after each one, the end sentinel `$` IDs (if present); fail with
`PhonemeError` if the resulting list is empty. -/
def phonemes_to_ids (cfg : PiperConfigE) (phonemes : List Char) :
    Except SynthErr (List Int) :=
  let blank_ids := (pm_lookup cfg.phoneme_id_map "_").getD []
  let start_ids := (pm_lookup cfg.phoneme_id_map "^").getD []
  let body := phonemes.foldl (p2i_step cfg.phoneme_id_map blank_ids) []
  let end_ids := (pm_lookup cfg.phoneme_id_map "$").getD []
  let ids := start_ids ++ blank_ids ++ body ++ end_ids
  if ids = [] then .error (.PhonemeError "No phoneme IDs generated")
  else .ok ids

/-- The `length_scale / rate` computed in `NeuralTtsEngine::generate_audio`
when the `scales` tensor is built. -/
def effective_length_scale (cfg : PiperConfigE) (rate : ℚ) : ℚ :=
  cfg.length_scale / rate

/-- `NeuralTtsEngine::set_rate`: clamp the requested rate multiplier to
`[0.5, 2.0]` (Rust `f32::clamp`). -/
def set_rate (r : ℚ) : ℚ :=
  if r < 1/2 then 1/2 else if r > 2 then 2 else r

/-- `NeuralTtsEngine::generate_audio`: phonemize the text (the external
`espeak-ng` invocation is an oracle argument `espeak_out`, which is a
`PhonemeError` when the process is missing or fails), map the phonemes to
IDs, build the `scales` values `(noise_scale, length_scale / rate,
noise_w)`, and run inference (the ONNX session is the oracle `infer`,
which receives the ID tensor data, its length, and the scales). -/
def generate_audio (cfg : PiperConfigE) (rate : ℚ)
    (espeak_out : Except String (List Char))
    (infer : List Int → Nat → ℚ × ℚ × ℚ → Except String (List ℚ)) :
    Except SynthErr (List ℚ) :=
  match espeak_out with
  | .error e => .error (.PhonemeError e)
  | .ok phonemes =>
    match phonemes_to_ids cfg phonemes with
    | .error e => .error e
    | .ok ids =>
      match infer ids ids.length (cfg.noise_scale, effective_length_scale cfg rate, cfg.noise_w) with
      | .error e => .error (.InferenceError e)
      | .ok samples => .ok samples

/-- Events sent on the channel by `NeuralTtsEngine::speak_sentences`. -/
inductive SentenceEvent where
  | Start (index : Nat) (text : String)
  | End (index : Nat)
  | Finished
  | Stopped
deriving DecidableEq

/-- The event trace of the loop in `NeuralTtsEngine::speak_sentences`,
indexed from `i`.  `cancelled i` is the value of `!is_speaking` observed
at the head of iteration `i` (the shared cancellation flag); `gen i` is
the outcome of `generate_audio` for sentence `i` (`none` = error, which
the loop logs and recovers from); `play_ok i` tells whether the blocking
playback setup reaches the `on_start` callback (WAV encode, stream open
and decode succeed) — `Start` is emitted from that callback, so a setup
failure emits no `Start`.  Every non-skipped iteration emits `End`, and
after the loop — whether it completed or broke out after `Stopped` — a
`Finished` event is always emitted. -/
def speak_sentences_go (cancelled : Nat → Bool) (gen : Nat → Option (List ℚ))
    (play_ok : Nat → Bool) : Nat → List String → List SentenceEvent
  | _, [] => [.Finished]
  | i, s :: rest =>
    if cancelled i then [.Stopped, .Finished]
    else if (preprocess_text s.toList) = [] then
      speak_sentences_go cancelled gen play_ok (i+1) rest
    else
      match gen i with
      | some audio =>
        if audio = [] then .End i :: speak_sentences_go cancelled gen play_ok (i+1) rest
        else if play_ok i then
          .Start i s :: .End i :: speak_sentences_go cancelled gen play_ok (i+1) rest
        else .End i :: speak_sentences_go cancelled gen play_ok (i+1) rest
      | none => .End i :: speak_sentences_go cancelled gen play_ok (i+1) rest

/-- `NeuralTtsEngine::speak_sentences`, viewed as the ordered trace of
events it sends on the channel.  Sentences are processed strictly
sequentially: each iteration awaits its playback task (and the oneshot
start signal) before emitting `End` and moving on, so the channel trace
is this sequential list. -/
def speak_sentences_events (cancelled : Nat → Bool) (gen : Nat → Option (List ℚ))
    (play_ok : Nat → Bool) (sentences : List String) : List SentenceEvent :=
  speak_sentences_go cancelled gen play_ok 0 sentences

/-- Well-formed event traces starting at sentence index `i`: blocks
`[Start i, End i]` or `[End i]` for increasing indices, terminated by
either `[Finished]` or `[Stopped, Finished]`.  Such a trace never emits
`End i` before `Start i`, never emits `Start (i+1)` before `End i`, ends
with exactly one `Finished`, and a `Stopped` is immediately followed by
the final `Finished`. -/
inductive EventsWF : Nat → List SentenceEvent → Prop where
  | fin (i : Nat) : EventsWF i [.Finished]
  | stop (i : Nat) : EventsWF i [.Stopped, .Finished]
  | skip (i : Nat) (tl : List SentenceEvent) : EventsWF (i+1) tl → EventsWF i tl
  | endOnly (i : Nat) (tl : List SentenceEvent) :
      EventsWF (i+1) tl → EventsWF i (.End i :: tl)
  | startEnd (i : Nat) (t : String) (tl : List SentenceEvent) :
      EventsWF (i+1) tl → EventsWF i (.Start i t :: .End i :: tl)

/-- `neural::speak` in `mod.rs`: try the neural engine; on `Ok` return
`Ok`; on any engine error fall back to the native OS speech path and
return the fallback's result.  `engine_result` is the outcome of
`NeuralTtsEngine::speak` and `native_result` that of `crate::tts::speak`. -/
def neural_speak (engine_result : Except SynthErr Unit)
    (native_result : Except String Unit) : Except String Unit :=
  match engine_result with
  | .ok _ => .ok ()
  | .error _ => native_result

/-- `ModelError` from `model.rs` (variants carrying context strings). -/
inductive ModelErr where
  | NotFound (msg : String)
  | DownloadFailed (msg : String)
  | Io (msg : String)
  | DirectoryError (msg : String)
  | ChecksumError
  | InsufficientSpace (needed : Nat) (available : Nat)
deriving DecidableEq

/-- `ModelFile`: one file of a model manifest (name, declared byte size,
relative path; the optional checksum is `None` for every file in the
compiled-in catalog and is never read, so it is omitted here). -/
structure EmbFile where
  name : String
  size : Nat
  path : String
deriving DecidableEq

/-- `NeuralModel`: a compiled-in catalog entry. -/
structure EmbModel where
  id : String
  display_name : String
  sizeBytes : Nat
  files : List EmbFile
  baseUrl : String

/-- The compiled-in catalog entry `PIPER_EN_US_MODEL` from `model.rs`,
with its literal declared sizes. -/
def PIPER_EN_US_MODEL : EmbModel :=
  { id := "piper-en-us"
    display_name := "Piper US English"
    sizeBytes := 63206179
    files :=
      [ { name := "en_US-lessac-medium.onnx", size := 63201294,
          path := "en_US-lessac-medium.onnx" }
      , { name := "en_US-lessac-medium.onnx.json", size := 4885,
          path := "en_US-lessac-medium.onnx.json" } ]
    baseUrl := "https://huggingface.co/rhasspy/piper-voices/resolve/main/en/en_US/lessac/medium" }

/-- On-disk state, keyed by paths relative to the models root directory:
`dirs d` says whether the directory `d` exists; `files p` returns the
byte content of the file at `p` when it exists (its length is what the
file metadata reports as the byte size). -/
structure FsState where
  dirs : String → Bool
  files : String → Option (List Nat)

/-- The relative path of a manifest file inside the models root. -/
def file_key (m : EmbModel) (p : String) : String := m.id ++ "/" ++ p

/-- Well-formedness of the on-disk state relative to a model: a real
filesystem can only hold a file inside an existing directory, so if any
manifest file exists, the model's directory exists. -/
def FsWf (fs : FsState) (m : EmbModel) : Prop :=
  ∀ f ∈ m.files, fs.files (file_key m f.path) ≠ none → fs.dirs m.id = true

/-- `ModelManager::is_model_ready`: false if the model directory is
missing; otherwise every manifest file must exist and its on-disk length
must equal the declared size exactly. -/
def is_model_ready (fs : FsState) (m : EmbModel) : Bool :=
  if fs.dirs m.id = false then false
  else m.files.all fun f =>
    match fs.files (file_key m f.path) with
    | some content => content.length == f.size
    | none => false

/-- The progress value handed to the callback in
`ModelManager::download_model`: the Rust code computes
`((current as f64 / size_bytes as f64) * 100.0) as u8`.  The `as u8`
cast truncates toward zero and saturates at 255 (and maps the NaN
produced by `0.0 / 0.0` to 0), which this exact rational model mirrors;
at every input appearing in the theorems below the double-precision
intermediate is far enough from an integer boundary that the exact floor
agrees with the float computation. -/
def progress_percent (current total : Nat) : Nat :=
  if total = 0 then (if current = 0 then 0 else 255)
  else min (current * 100 / total) 255

/-- Modelled from the spec: the callback value the spec claims,
`round(bytes_downloaded_so_far / total_size * 100)` (round half away
from zero; all quantities are non-negative). -/
def round_percent (current total : Nat) : Nat :=
  (current * 100 * 2 + total) / (2 * total)

/-- The per-chunk progress callbacks issued while streaming one file:
`base` is `total_downloaded` (bytes from files already finished) and each
received chunk advances the cumulative count. -/
def chunk_progress (sizeB : Nat) : Nat → List (List Nat) → List Nat
  | _, [] => []
  | base, c :: cs =>
    progress_percent (base + c.length) sizeB :: chunk_progress sizeB (base + c.length) cs

/-- Result of a `download_model` run: the returned `Result`, the final
on-disk state, the ordered list of progress-callback values, the number
of network requests issued, and the `completed_files` counter. -/
structure DlOut where
  result : Except ModelErr Unit
  fs : FsState
  calls : List Nat
  requests : Nat
  completed : Nat

/-- The per-file loop of `ModelManager::download_model`.  For each
manifest file: if it already exists with exactly the declared size, skip
it (counting its declared size into the cumulative total and firing one
progress callback); otherwise issue a GET for `{base_url}/{file_name}`
(`net url = none` models a transport error or non-success status — in
both cases the code returns `DownloadFailed` before creating the file),
and on success write the streamed chunks, firing one progress callback
per chunk.  `total` is `total_downloaded`, `reqs` counts requests,
`comp` is `completed_files`. -/
def dl_go (m : EmbModel) (net : String → Option (List (List Nat))) :
    List EmbFile → FsState → Nat → Nat → Nat → List Nat → DlOut
  | [], fs, _, reqs, comp, calls =>
    { result := .ok (), fs := fs, calls := calls, requests := reqs, completed := comp }
  | f :: rest, fs, total, reqs, comp, calls =>
    let key := file_key m f.path
    let already := match fs.files key with
      | some content => content.length == f.size
      | none => false
    if already then
      dl_go m net rest fs (total + f.size) reqs (comp + 1)
        (calls ++ [progress_percent (total + f.size) m.sizeBytes])
    else
      let url := m.baseUrl ++ "/" ++ f.name
      match net url with
      | none =>
        { result := .error (.DownloadFailed url), fs := fs, calls := calls,
          requests := reqs + 1, completed := comp }
      | some chunks =>
        let content := chunks.flatten
        let fs1 : FsState :=
          { fs with files := fun p => if p = key then some content else fs.files p }
        dl_go m net rest fs1 (total + content.length) (reqs + 1) (comp + 1)
          (calls ++ chunk_progress m.sizeBytes total chunks)

/-- `ModelManager::download_model`: the disk-space preflight is fail-open
(it returns `Ok` on every platform path), `create_dir_all` ensures the
model directory exists, then the per-file loop runs; finally the code
checks `completed_files == total_files` (unreachable failure, kept for
fidelity). -/
def download_model (m : EmbModel) (fs : FsState)
    (net : String → Option (List (List Nat))) : DlOut :=
  let fs0 : FsState :=
    { fs with dirs := fun d => if d = m.id then true else fs.dirs d }
  let out := dl_go m net m.files fs0 0 0 0 []
  match out.result with
  | .error _ => out
  | .ok _ =>
    if out.completed = m.files.length then out
    else { out with result := .error (.DownloadFailed "incomplete download") }

/-- Running cumulative byte totals after each streamed chunk. -/
def prefix_sums : Nat → List (List Nat) → List Nat
  | _, [] => []
  | base, c :: cs => (base + c.length) :: prefix_sums (base + c.length) cs

/-- Modelled from the spec ("proportional to cumulative bytes across the
entire model"): the cumulative byte counts at which `download_model`
invokes the progress callback — one entry per skipped file (its declared
size is credited at once) and one per received chunk, tracking the same
control flow and filesystem evolution as the loop itself. -/
def cum_trace_go (m : EmbModel) (net : String → Option (List (List Nat))) :
    List EmbFile → FsState → Nat → List Nat
  | [], _, _ => []
  | f :: rest, fs, total =>
    let key := file_key m f.path
    let already := match fs.files key with
      | some content => content.length == f.size
      | none => false
    if already then
      (total + f.size) :: cum_trace_go m net rest fs (total + f.size)
    else
      match net (m.baseUrl ++ "/" ++ f.name) with
      | none => []
      | some chunks =>
        let content := chunks.flatten
        let fs1 : FsState :=
          { fs with files := fun p => if p = key then some content else fs.files p }
        prefix_sums total chunks ++ cum_trace_go m net rest fs1 (total + content.length)

/-- The cumulative byte counts at every progress callback of a whole
`download_model` run. -/
def cum_trace (m : EmbModel) (fs : FsState)
    (net : String → Option (List (List Nat))) : List Nat :=
  let fs0 : FsState :=
    { fs with dirs := fun d => if d = m.id then true else fs.dirs d }
  cum_trace_go m net m.files fs0 0

/-- Joining a run of sentences with single spaces, exactly as the
chunking loop builds `current_chunk` (`push(' ')` between sentences). -/
def space_join : List (List Char) → List Char
  | [] => []
  | [s] => s
  | s :: r :: rest => s ++ ' ' :: space_join (r :: rest)

/-- A well-formed processed sentence: non-empty and invariant under
trimming (every element of `sentencesOf text` has this shape, being a
trimmed non-empty piece with a period appended). -/
def GoodSent (s : List Char) : Prop := s ≠ [] ∧ trim_chars s = s

/-- A small phoneme-ID map containing the three sentinels, the space
entry and two letters (the shape of a real Piper `phoneme_id_map`). -/
def cfg_ex : PiperConfigE :=
  { sample_rate := 22050, espeak_voice := "en-us", noise_scale := 667/1000,
    length_scale := 1, noise_w := 4/5,
    phoneme_id_map :=
      [("_", [0]), ("^", [1]), ("$", [2]), (" ", [3]), ("a", [14]), ("b", [15])] }

/-- A degenerate phoneme-ID map with no sentinel entries. -/
def cfg_unk : PiperConfigE :=
  { sample_rate := 22050, espeak_voice := "en-us", noise_scale := 667/1000,
    length_scale := 1, noise_w := 4/5, phoneme_id_map := [("a", [14])] }

/-- A two-file toy catalog entry (total 8 bytes: 1 + 7) used to exercise
the download loop at kernel-evaluable sizes. -/
def m8 : EmbModel :=
  { id := "m8", display_name := "toy model", sizeBytes := 8,
    files := [⟨"f1", 1, "f1"⟩, ⟨"f2", 7, "f2"⟩], baseUrl := "u" }

/-- An on-disk state where both files of `m8` are present with exactly
their declared sizes. -/
def fs8 : FsState :=
  { dirs := fun d => d == "m8",
    files := fun p =>
      if p == "m8/f1" then some [9]
      else if p == "m8/f2" then some [9, 9, 9, 9, 9, 9, 9] else none }

/-- A network on which every request fails (no request should be made on
an already-complete model, so this makes any GET observable). -/
def net_none : String → Option (List (List Nat)) := fun _ => none

/-- A 501-character text consisting of two sentences separated by two
spaces: `298 × 'a'`, `"."`, two spaces, `199 × 'b'`, `"."`. -/
def c9_bad_text : List Char :=
  List.replicate 298 'a' ++ '.' :: ' ' :: ' ' :: List.replicate 199 'b' ++ ['.']

/-- A 502-character text of two single-space-separated sentences whose
processed sentences have total length 501. -/
def c9_two_sentence_text : List Char :=
  List.replicate 300 'a' ++ '.' :: ' ' :: List.replicate 199 'b' ++ ['.']


/-! ### Helper lemmas -/

/-- Folding the per-character step over characters that all have direct
map entries appends, for each character, its IDs followed by the blank
block. -/
theorem p2i_fold_mapped (mm : List (String × List Int)) (bl : List Int) :
    ∀ (l : List Char) (acc : List Int),
      (∀ c ∈ l, (pm_lookup mm (String.singleton c)).isSome) →
      l.foldl (p2i_step mm bl) acc =
        acc ++ (l.map (fun c => (pm_lookup mm (String.singleton c)).getD [] ++ bl)).flatten := by
  intro l
  induction l with
  | nil => intro acc _; simp
  | cons c t ih =>
    intro acc h
    obtain ⟨v, hv⟩ := Option.isSome_iff_exists.mp (h c (by simp))
    have hstep : p2i_step mm bl acc c = acc ++ v ++ bl := by
      unfold p2i_step; rw [hv]
    rw [List.foldl_cons, hstep, ih _ (fun d hd => h d (by simp [hd]))]
    simp [hv, List.append_assoc]

/-- Folding the per-character step over characters that are unmapped and
non-whitespace leaves the accumulator unchanged. -/
theorem p2i_fold_unknown (mm : List (String × List Int)) (bl : List Int) :
    ∀ (l : List Char) (acc : List Int),
      (∀ c ∈ l, pm_lookup mm (String.singleton c) = none ∧ rust_is_whitespace c = false) →
      l.foldl (p2i_step mm bl) acc = acc := by
  intro l
  induction l with
  | nil => intro acc _; rfl
  | cons c t ih =>
    intro acc h
    obtain ⟨hnone, hws⟩ := h c (by simp)
    have hnl : (c == '\n') = false := by
      by_cases hc : c = '\n'
      · subst hc; simp [rust_is_whitespace] at hws
      · simp [hc]
    have hstep : p2i_step mm bl acc c = acc := by
      unfold p2i_step; rw [hnone]; simp [hws, hnl]
    rw [List.foldl_cons, hstep, ih _ (fun d hd => h d (by simp [hd]))]

/-! ### C1 -/

/-- C1: for a non-empty phoneme string whose characters all have direct
entries in the loaded phoneme-ID map (whose sentinels `^`, `_`, `$` are
present, with a non-empty blank block), `phonemes_to_ids` succeeds with
the sequence: start IDs, blank IDs, then for each of the k mapped symbols
its IDs followed by exactly one blank block (k+1 blank blocks in total),
and finally the end IDs. -/
theorem c1_phoneme_interleaving (cfg : PiperConfigE) (phonemes : List Char)
    (st bl en : List Int)
    (hst : pm_lookup cfg.phoneme_id_map "^" = some st)
    (hbl : pm_lookup cfg.phoneme_id_map "_" = some bl)
    (hen : pm_lookup cfg.phoneme_id_map "$" = some en)
    (hblne : bl ≠ []) (_hne : phonemes ≠ [])
    (hmapped : ∀ c ∈ phonemes, (pm_lookup cfg.phoneme_id_map (String.singleton c)).isSome) :
    phonemes_to_ids cfg phonemes =
      .ok (st ++ bl ++
        (phonemes.map
          (fun c => (pm_lookup cfg.phoneme_id_map (String.singleton c)).getD [] ++ bl)).flatten
        ++ en) := by
  unfold phonemes_to_ids
  rw [hst, hbl, hen]
  simp only [Option.getD_some]
  rw [p2i_fold_mapped cfg.phoneme_id_map bl phonemes [] hmapped]
  rw [if_neg]
  · simp [List.append_assoc]
  · intro h
    simp only [List.append_eq_nil] at h
    exact hblne h.1.1.2

/-- Witness for C1 at a concrete map and the two-character phoneme
string `ab`. -/
theorem c1_witness :
    ([0] : List Int) ≠ [] ∧ (['a', 'b'] : List Char) ≠ [] ∧
    phonemes_to_ids cfg_ex ['a', 'b'] = .ok [1, 0, 14, 0, 15, 0, 2] := by
  refine ⟨by decide, by decide, ?_⟩
  have h := c1_phoneme_interleaving cfg_ex ['a', 'b'] [1] [0] [2]
    rfl rfl rfl (by decide) (by decide) (by decide)
  exact h.trans (by rfl)

/-! ### C4 -/

/-- C4 counterexample: with a realistic map that contains the sentinel
entries (`^ ↦ [1]`, `_ ↦ [0]`, `$ ↦ [2]`), an input consisting solely of
the unrecognized, non-whitespace symbol `!` does NOT fail with
`PhonemeError`: the ID list is the non-empty sentinel-only sequence
`[1, 0, 2]`, and the pipeline goes on to call inference (the oracle's
result is returned). -/
theorem c4_counterexample_sentinels :
    phonemes_to_ids cfg_ex ['!'] = .ok [1, 0, 2] ∧
    generate_audio cfg_ex 1 (.ok ['!']) (fun _ _ _ => .ok [0]) = .ok [0] :=
  ⟨rfl, rfl⟩

/-- C4 (amended): for an input all of whose symbols are unmapped and
non-whitespace, the resulting ID list consists solely of the sentinel
IDs emitted unconditionally (start, blank, end defaults); the pipeline
fails with `PhonemeError` exactly when that sentinel list is empty,
i.e. when the map has no sentinel entries — with sentinels present the
call succeeds and inference does occur. -/
theorem c4_all_unknown_amended (cfg : PiperConfigE) (phonemes : List Char)
    (hunk : ∀ c ∈ phonemes,
      pm_lookup cfg.phoneme_id_map (String.singleton c) = none ∧
      rust_is_whitespace c = false) :
    phonemes_to_ids cfg phonemes =
      (if ((pm_lookup cfg.phoneme_id_map "^").getD [] ++
           (pm_lookup cfg.phoneme_id_map "_").getD [] ++
           (pm_lookup cfg.phoneme_id_map "$").getD []) = []
       then .error (.PhonemeError "No phoneme IDs generated")
       else .ok ((pm_lookup cfg.phoneme_id_map "^").getD [] ++
                 (pm_lookup cfg.phoneme_id_map "_").getD [] ++
                 (pm_lookup cfg.phoneme_id_map "$").getD [])) := by
  simp only [phonemes_to_ids]
  rw [p2i_fold_unknown cfg.phoneme_id_map
    ((pm_lookup cfg.phoneme_id_map "_").getD []) phonemes [] hunk]
  simp [List.append_assoc]

/-- Witness for the amended C4 at a sentinel-free map: the all-unknown
input `!` produces the `PhonemeError`. -/
theorem c4_witness :
    (∀ c ∈ (['!'] : List Char),
      pm_lookup cfg_unk.phoneme_id_map (String.singleton c) = none ∧
      rust_is_whitespace c = false) ∧
    phonemes_to_ids cfg_unk ['!'] = .error (.PhonemeError "No phoneme IDs generated") := by
  refine ⟨by decide, ?_⟩
  have h := c4_all_unknown_amended cfg_unk ['!'] (by decide)
  exact h.trans (by rfl)

/-! ### C5 -/

/-- C5 (code bug): `neural::speak` falls back to the native OS speech
path on every engine error — in particular on an `InferenceError`
raised mid-utterance — returning the fallback's result instead of
surfacing the error, contradicting both the claim and the function's
own documentation comment ("Falls back to native TTS only if the model
is not downloaded"). -/
theorem c5_fallback_on_any_error :
    (∀ (e : SynthErr) (fb : Except String Unit), neural_speak (.error e) fb = fb) ∧
    neural_speak (.error (.InferenceError "onnx runtime failure mid-utterance"))
      (.ok ()) = .ok () :=
  ⟨fun _ _ => rfl, rfl⟩

/-! ### C8 -/

/-- C8: `set_rate` clamps every input to `[0.5, 2.0]`, and the effective
`length_scale` passed to inference is the config's `length_scale`
divided by the stored (clamped) rate; increasing the requested rate
strictly decreases the effective length scale, or leaves it unchanged
exactly when both inputs clamp to the same value. -/
theorem c8_rate_monotonicity (cfg : PiperConfigE) (r r1 r2 : ℚ)
    (hL : 0 < cfg.length_scale) (h12 : r1 < r2) :
    (1/2 ≤ set_rate r ∧ set_rate r ≤ 2) ∧
    (effective_length_scale cfg (set_rate r2) < effective_length_scale cfg (set_rate r1) ∨
      (set_rate r1 = set_rate r2 ∧
        effective_length_scale cfg (set_rate r1) =
          effective_length_scale cfg (set_rate r2))) := by
  have hbounds : ∀ s : ℚ, 1/2 ≤ set_rate s ∧ set_rate s ≤ 2 := by
    intro s
    unfold set_rate
    split_ifs <;> constructor <;> linarith
  refine ⟨hbounds r, ?_⟩
  have hmono : set_rate r1 ≤ set_rate r2 := by
    unfold set_rate
    split_ifs <;> linarith
  rcases eq_or_lt_of_le hmono with heq | hlt
  · exact Or.inr ⟨heq, by rw [heq]⟩
  · have h1pos : 0 < set_rate r1 := lt_of_lt_of_le (by norm_num) (hbounds r1).1
    exact Or.inl (div_lt_div_of_pos_left hL h1pos hlt)

/-- Witness for C8 at `length_scale = 1` and rates 1 and 2: doubling the
rate halves the effective length scale. -/
theorem c8_witness :
    (0 < cfg_ex.length_scale ∧ (1 : ℚ) < 2) ∧
    (effective_length_scale cfg_ex (set_rate 2) < effective_length_scale cfg_ex (set_rate 1) ∨
      (set_rate 1 = set_rate 2 ∧
        effective_length_scale cfg_ex (set_rate 1) =
          effective_length_scale cfg_ex (set_rate 2))) :=
  ⟨⟨by norm_num [cfg_ex], by norm_num⟩,
   (c8_rate_monotonicity cfg_ex 1 1 2 (by norm_num [cfg_ex]) (by norm_num)).2⟩

/-! ### C10 -/

/-- C10: the compiled-in catalog entry `PIPER_EN_US_MODEL` is
internally consistent — its declared total `size_bytes` (63,206,179)
equals the sum of its manifest files' declared sizes
(63,201,294 + 4,885) — so once every manifest file has been credited
during a download the cumulative-bytes-over-total progress value is
exactly 100. -/
theorem c10_catalog_consistency :
    PIPER_EN_US_MODEL.sizeBytes = (PIPER_EN_US_MODEL.files.map EmbFile.size).sum ∧
    progress_percent PIPER_EN_US_MODEL.sizeBytes PIPER_EN_US_MODEL.sizeBytes = 100 := by
  constructor
  · decide
  · decide

/-! ### C3 -/

/-- Every trace produced by the `speak_sentences` loop starting at index
`i` is well-formed in the sense of `EventsWF`. -/
theorem speak_go_wf (cancelled : Nat → Bool) (gen : Nat → Option (List ℚ))
    (play_ok : Nat → Bool) :
    ∀ (ss : List String) (i : Nat),
      EventsWF i (speak_sentences_go cancelled gen play_ok i ss) := by
  intro ss
  induction ss with
  | nil => intro i; exact EventsWF.fin i
  | cons s rest ih =>
    intro i
    rw [speak_sentences_go]
    split
    · exact EventsWF.stop i
    · split
      · exact EventsWF.skip i _ (ih (i + 1))
      · split
        · split
          · exact EventsWF.endOnly i _ (ih (i + 1))
          · split
            · exact EventsWF.startEnd i s _ (ih (i + 1))
            · exact EventsWF.endOnly i _ (ih (i + 1))
        · exact EventsWF.endOnly i _ (ih (i + 1))

/-- C3 counterexample: with two sentences and cancellation observed at
the head of iteration 1, the loop emits `Stopped` and breaks — and then
the code after the loop still emits `Finished`, so something IS emitted
after an already-emitted `Stopped`, contradicting the claim's
"nothing additional emitted after an already-emitted Stopped". -/
theorem c3_counterexample_finished_after_stopped :
    speak_sentences_events (fun i => i == 1) (fun _ => some [1]) (fun _ => true)
      ["A.", "B."] =
      [.Start 0 "A.", .End 0, .Stopped, .Finished] := by decide

/-- C3 (amended): events of sentence `i` are emitted as a block `Start i`
immediately followed by `End i` (or `End i` alone for a skipped/failed
sentence), blocks appear in strictly increasing index order — so
`Start i` always precedes `End i`, and `End i` precedes `Start (i+1)` —
and the trace ends with exactly one `Finished`, which is emitted
unconditionally after the loop: on cancellation the trace ends with
`Stopped` immediately followed by that final `Finished` (rather than
with `Stopped` alone as the original claim states).  The second conjunct
checks the spec's three-sentence scenario. -/
theorem c3_event_order_amended :
    (∀ (cancelled : Nat → Bool) (gen : Nat → Option (List ℚ))
        (play_ok : Nat → Bool) (sentences : List String),
      EventsWF 0 (speak_sentences_events cancelled gen play_ok sentences)) ∧
    speak_sentences_events (fun _ => false) (fun _ => some [1]) (fun _ => true)
        ["A.", "B.", "C."] =
      [.Start 0 "A.", .End 0, .Start 1 "B.", .End 1, .Start 2 "C.", .End 2, .Finished] :=
  ⟨fun c g p ss => speak_go_wf c g p ss 0, by decide⟩

/-! ### C2 -/

/-- C2: for every model with a non-empty manifest and every well-formed
on-disk state, `is_model_ready` returns true iff every manifest file
exists under the model's directory with byte length exactly equal to its
declared size; and whenever any one required file's length differs from
the declared size (e.g. it was truncated by one byte), readiness is
false. -/
theorem c2_readiness_iff (fs : FsState) (m : EmbModel)
    (hwf : FsWf fs m) (hne : m.files ≠ []) :
    (is_model_ready fs m = true ↔
      ∀ f ∈ m.files, ∃ c, fs.files (file_key m f.path) = some c ∧ c.length = f.size) ∧
    (∀ f ∈ m.files, ∀ c, fs.files (file_key m f.path) = some c → c.length ≠ f.size →
      is_model_ready fs m = false) := by
  have hmain : is_model_ready fs m = true ↔
      ∀ f ∈ m.files, ∃ c, fs.files (file_key m f.path) = some c ∧ c.length = f.size := by
    constructor
    · intro h f hf
      rw [is_model_ready] at h
      by_cases hd : fs.dirs m.id = false
      · simp [hd] at h
      · rw [if_neg hd, List.all_eq_true] at h
        have hpred := h f hf
        cases hcf : fs.files (file_key m f.path) with
        | none => rw [hcf] at hpred; simp at hpred
        | some c =>
          rw [hcf] at hpred
          simp only [beq_iff_eq] at hpred
          exact ⟨c, rfl, hpred⟩
    · intro h
      obtain ⟨f0, hf0⟩ := List.exists_mem_of_ne_nil m.files hne
      obtain ⟨c0, hc0, _⟩ := h f0 hf0
      have hd : fs.dirs m.id = true := hwf f0 hf0 (by simp [hc0])
      rw [is_model_ready, if_neg (by simp [hd]), List.all_eq_true]
      intro f hf
      obtain ⟨c, hc, hlen⟩ := h f hf
      rw [hc]
      simpa using hlen
  refine ⟨hmain, ?_⟩
  intro f hf c hc hlen
  rcases Bool.eq_false_or_eq_true (is_model_ready fs m) with h | h
  · exfalso
    obtain ⟨c2, hc2, hlen2⟩ := hmain.mp h f hf
    rw [hc] at hc2
    cases hc2
    exact hlen hlen2
  · exact h

/-- Witness for C2: the toy model `m8` with both files present at their
declared sizes is ready. -/
theorem c2_witness :
    FsWf fs8 m8 ∧ m8.files ≠ [] ∧ is_model_ready fs8 m8 = true := by
  have hwf : FsWf fs8 m8 := by
    intro f hf _
    rfl
  refine ⟨hwf, by decide, ?_⟩
  apply (c2_readiness_iff fs8 m8 hwf (by decide)).1.mpr
  intro f hf
  simp only [m8, List.mem_cons, List.not_mem_nil, or_false] at hf
  rcases hf with rfl | rfl
  · exact ⟨[9], rfl, rfl⟩
  · exact ⟨[9, 9, 9, 9, 9, 9, 9], rfl, rfl⟩

/-! ### C7 -/

/-- If every remaining manifest file is already on disk with exactly its
declared size, the download loop takes the skip branch for each file:
it returns `Ok`, leaves the filesystem untouched, issues no request, and
counts every file as completed (appending one progress value per file). -/
theorem dl_go_all_skip (m : EmbModel) (net : String → Option (List (List Nat))) :
    ∀ (fls : List EmbFile) (fs : FsState) (total reqs comp : Nat) (calls : List Nat),
      (∀ f ∈ fls, ∃ c, fs.files (file_key m f.path) = some c ∧ c.length = f.size) →
      ∃ extra, dl_go m net fls fs total reqs comp calls =
        { result := .ok (), fs := fs, calls := calls ++ extra, requests := reqs,
          completed := comp + fls.length } := by
  intro fls
  induction fls with
  | nil =>
    intro fs total reqs comp calls _
    exact ⟨[], by simp [dl_go]⟩
  | cons f rest ih =>
    intro fs total reqs comp calls h
    obtain ⟨c, hc, hlen⟩ := h f (by simp)
    have hskip : (match fs.files (file_key m f.path) with
        | some content => content.length == f.size
        | none => false) = true := by
      rw [hc]; simpa using hlen
    obtain ⟨extra, hrec⟩ := ih fs (total + f.size) reqs (comp + 1)
      (calls ++ [progress_percent (total + f.size) m.sizeBytes])
      (fun g hg => h g (by simp [hg]))
    refine ⟨progress_percent (total + f.size) m.sizeBytes :: extra, ?_⟩
    rw [dl_go]
    simp only [hskip, if_true]
    rw [hrec]
    simp only [DlOut.mk.injEq]
    refine ⟨trivial, trivial, by simp, trivial, by rw [List.length_cons]; omega⟩

/-- C7: calling `download_model` on a model whose manifest files are all
already present with exactly their declared sizes returns `Ok`, performs
zero network requests, and leaves every file byte-identical — so a
second download of an already-complete model is a no-op as well. -/
theorem c7_idempotent_skip (m : EmbModel) (fs : FsState)
    (net : String → Option (List (List Nat)))
    (hready : ∀ f ∈ m.files, ∃ c, fs.files (file_key m f.path) = some c ∧ c.length = f.size) :
    (download_model m fs net).result = .ok () ∧
    (download_model m fs net).requests = 0 ∧
    ∀ p, (download_model m fs net).fs.files p = fs.files p := by
  simp only [download_model]
  obtain ⟨extra, hrec⟩ := dl_go_all_skip m net m.files
    { fs with dirs := fun d => if d = m.id then true else fs.dirs d } 0 0 0 [] hready
  rw [hrec]
  simp

/-- Witness for C7: the toy model `m8`, fully present on disk as `fs8`,
downloads with zero requests against a network that fails every GET. -/
theorem c7_witness :
    (∀ f ∈ m8.files, ∃ c, fs8.files (file_key m8 f.path) = some c ∧ c.length = f.size) ∧
    (download_model m8 fs8 net_none).result = .ok () ∧
    (download_model m8 fs8 net_none).requests = 0 := by
  have hready : ∀ f ∈ m8.files,
      ∃ c, fs8.files (file_key m8 f.path) = some c ∧ c.length = f.size := by
    intro f hf
    simp only [m8, List.mem_cons, List.not_mem_nil, or_false] at hf
    rcases hf with rfl | rfl
    · exact ⟨[9], rfl, rfl⟩
    · exact ⟨[9, 9, 9, 9, 9, 9, 9], rfl, rfl⟩
  exact ⟨hready, (c7_idempotent_skip m8 fs8 net_none hready).1,
    (c7_idempotent_skip m8 fs8 net_none hready).2.1⟩

/-! ### C6 -/

/-- The per-chunk progress values are the progress function applied to
the running cumulative byte totals. -/
theorem chunk_progress_eq (sizeB : Nat) :
    ∀ (chunks : List (List Nat)) (base : Nat),
      chunk_progress sizeB base chunks =
        (prefix_sums base chunks).map (fun c => progress_percent c sizeB) := by
  intro chunks
  induction chunks with
  | nil => intro base; rfl
  | cons c cs ih => intro base; simp [chunk_progress, prefix_sums, ih]

/-- The progress values reported by the download loop are exactly the
progress function applied to the cumulative byte counts of
`cum_trace_go`. -/
theorem dl_go_calls (m : EmbModel) (net : String → Option (List (List Nat))) :
    ∀ (fls : List EmbFile) (fs : FsState) (total reqs comp : Nat) (calls : List Nat),
      (dl_go m net fls fs total reqs comp calls).calls =
        calls ++ (cum_trace_go m net fls fs total).map
          (fun c => progress_percent c m.sizeBytes) := by
  intro fls
  induction fls with
  | nil => intro fs total reqs comp calls; simp [dl_go, cum_trace_go]
  | cons f rest ih =>
    intro fs total reqs comp calls
    rw [dl_go, cum_trace_go]
    cases halready : (match fs.files (file_key m f.path) with
        | some content => content.length == f.size
        | none => false) with
    | true =>
      simp only [if_true]
      rw [ih]
      simp
    | false =>
      simp only [Bool.false_eq_true, if_false]
      cases hnet : net (m.baseUrl ++ "/" ++ f.name) with
      | none => simp
      | some chunks =>
        rw [ih]
        simp [chunk_progress_eq, List.append_assoc]

/-- The final `completed_files` bookkeeping of `download_model` does not
change the list of progress callbacks already issued. -/
theorem download_model_calls (m : EmbModel) (fs : FsState)
    (net : String → Option (List (List Nat))) :
    (download_model m fs net).calls =
      (cum_trace m fs net).map (fun c => progress_percent c m.sizeBytes) := by
  have h := dl_go_calls m net m.files
    { fs with dirs := fun d => if d = m.id then true else fs.dirs d } 0 0 0 []
  rw [List.nil_append] at h
  simp only [download_model, cum_trace]
  cases hres : (dl_go m net m.files
      { fs with dirs := fun d => if d = m.id then true else fs.dirs d } 0 0 0 []).result with
  | error e => simp only [hres]; exact h
  | ok u =>
    cases u
    simp only [hres]
    split
    · exact h
    · exact h

/-- C6 (amended): every progress-callback value during `download_model`
is `floor(cumulative_bytes * 100 / total_size)` — the `as u8` cast
truncates, it does not round — of the cumulative bytes downloaded across
the entire model, and as long as the cumulative count never exceeds the
declared total size every reported percent lies in `0..=100`. -/
theorem c6_progress_amended (m : EmbModel) (fs : FsState)
    (net : String → Option (List (List Nat)))
    (hbound : ∀ c ∈ cum_trace m fs net, c ≤ m.sizeBytes) (hS : m.sizeBytes ≠ 0) :
    (download_model m fs net).calls =
      (cum_trace m fs net).map (fun c => progress_percent c m.sizeBytes) ∧
    ∀ p ∈ (download_model m fs net).calls, p ≤ 100 := by
  refine ⟨download_model_calls m fs net, ?_⟩
  intro p hp
  rw [download_model_calls m fs net] at hp
  obtain ⟨c, hc, rfl⟩ := List.mem_map.mp hp
  have hcS := hbound c hc
  unfold progress_percent
  rw [if_neg hS]
  calc min (c * 100 / m.sizeBytes) 255 ≤ c * 100 / m.sizeBytes := min_le_left _ _
    _ ≤ m.sizeBytes * 100 / m.sizeBytes :=
      Nat.div_le_div_right (Nat.mul_le_mul_right 100 hcS)
    _ = 100 := Nat.mul_div_cancel_left 100 (Nat.pos_of_ne_zero hS)

/-- C6 counterexample: downloading the toy model `m8` (total 8 bytes,
files of 1 and 7 bytes, both already on disk) issues callbacks with the
cumulative counts 1 and 8; the first callback receives
`floor(1/8 * 100) = 12`, whereas the claimed formula
`round(1/8 * 100) = round(12.5)` gives 13 — the code truncates instead
of rounding. -/
theorem c6_counterexample_truncation :
    (download_model m8 fs8 net_none).calls = [12, 100] ∧
    cum_trace m8 fs8 net_none = [1, 8] ∧
    round_percent 1 8 = 13 ∧ (12 : Nat) ≠ 13 := by
  refine ⟨by decide, by decide, by decide, by decide⟩

/-- Witness for the amended C6 at the toy model `m8`. -/
theorem c6_witness :
    ((∀ c ∈ cum_trace m8 fs8 net_none, c ≤ m8.sizeBytes) ∧ m8.sizeBytes ≠ 0) ∧
    (download_model m8 fs8 net_none).calls =
      (cum_trace m8 fs8 net_none).map (fun c => progress_percent c m8.sizeBytes) :=
  ⟨⟨by decide, by decide⟩,
   (c6_progress_amended m8 fs8 net_none (by decide) (by decide)).1⟩

/-! ### C9: trimming and chunking lemmas -/

/-- `dropWhile` either empties the list or exposes a head not satisfying
the predicate. -/
theorem dw_nil_or_head (p : Char → Bool) (l : List Char) :
    l.dropWhile p = [] ∨ ∃ a t, l.dropWhile p = a :: t ∧ p a = false := by
  induction l with
  | nil => exact Or.inl rfl
  | cons a t ih =>
    rw [List.dropWhile_cons]
    by_cases h : p a = true
    · rw [if_pos h]; exact ih
    · rw [if_neg h]
      exact Or.inr ⟨a, t, rfl, by simpa using h⟩

/-- `dropWhile` removes a prefix. -/
theorem dw_suffix_ex (p : Char → Bool) (l : List Char) :
    ∃ s, l = s ++ l.dropWhile p := by
  induction l with
  | nil => exact ⟨[], rfl⟩
  | cons a t ih =>
    rw [List.dropWhile_cons]
    by_cases h : p a = true
    · rw [if_pos h]
      obtain ⟨s, hs⟩ := ih
      exact ⟨a :: s, by rw [List.cons_append, ← hs]⟩
    · rw [if_neg h]; exact ⟨[], rfl⟩

/-- A list whose first and last characters are not whitespace is
invariant under trimming. -/
theorem trim_eq_self (l : List Char)
    (hh : ∃ a t, l = a :: t ∧ rust_is_whitespace a = false)
    (hl : ∃ t b, l = t ++ [b] ∧ rust_is_whitespace b = false) :
    trim_chars l = l := by
  obtain ⟨a, t, heq1, ha⟩ := hh
  obtain ⟨t2, b, heq2, hb⟩ := hl
  have h1 : l.dropWhile rust_is_whitespace = l := by
    rw [heq1, List.dropWhile_cons, if_neg (by simp [ha])]
  have h2 : l.reverse.dropWhile rust_is_whitespace = l.reverse := by
    rw [heq2, List.reverse_append, List.reverse_singleton, List.singleton_append,
      List.dropWhile_cons, if_neg (by simp [hb])]
  unfold trim_chars
  rw [h1, h2, List.reverse_reverse]

/-- A non-empty trimmed list starts with a non-whitespace character. -/
theorem trim_head_not_ws (l : List Char) (h : trim_chars l ≠ []) :
    ∃ a t, trim_chars l = a :: t ∧ rust_is_whitespace a = false := by
  obtain ⟨s, hs⟩ := dw_suffix_ex rust_is_whitespace (l.dropWhile rust_is_whitespace).reverse
  have hu : l.dropWhile rust_is_whitespace = trim_chars l ++ s.reverse := by
    unfold trim_chars
    calc l.dropWhile rust_is_whitespace
        = (l.dropWhile rust_is_whitespace).reverse.reverse := by rw [List.reverse_reverse]
      _ = (s ++ ((l.dropWhile rust_is_whitespace).reverse.dropWhile rust_is_whitespace)).reverse := by
          rw [← hs]
      _ = ((l.dropWhile rust_is_whitespace).reverse.dropWhile rust_is_whitespace).reverse
            ++ s.reverse := by rw [List.reverse_append]
  rcases dw_nil_or_head rust_is_whitespace l with hnil | ⟨a, t, hat, ha⟩
  · exfalso
    rw [hnil] at hu
    cases htc : trim_chars l with
    | nil => exact h htc
    | cons x xs => rw [htc] at hu; simp at hu
  · cases htc : trim_chars l with
    | nil => exact absurd htc h
    | cons x xs =>
      refine ⟨x, xs, rfl, ?_⟩
      rw [htc, List.cons_append] at hu
      rw [hat] at hu
      injection hu with h1 _
      rw [← h1]
      exact ha

/-- A non-empty trimmed list ends with a non-whitespace character. -/
theorem trim_last_not_ws (l : List Char) (h : trim_chars l ≠ []) :
    ∃ t b, trim_chars l = t ++ [b] ∧ rust_is_whitespace b = false := by
  have hrw : trim_chars l =
      ((l.dropWhile rust_is_whitespace).reverse.dropWhile rust_is_whitespace).reverse := rfl
  rcases dw_nil_or_head rust_is_whitespace (l.dropWhile rust_is_whitespace).reverse with
    hnil | ⟨b, t, hbt, hb⟩
  · exfalso; apply h; rw [hrw, hnil]; rfl
  · refine ⟨t.reverse, b, ?_, hb⟩
    rw [hrw, hbt]
    simp

/-- Ends non-whitespace imply `GoodSent`. -/
theorem good_of_ends (s : List Char)
    (hh : ∃ a t, s = a :: t ∧ rust_is_whitespace a = false)
    (hl : ∃ t b, s = t ++ [b] ∧ rust_is_whitespace b = false) : GoodSent s := by
  refine ⟨?_, trim_eq_self s hh hl⟩
  obtain ⟨a, t, heq, -⟩ := hh
  simp [heq]

/-- A `GoodSent` starts with a non-whitespace character. -/
theorem good_head (s : List Char) (h : GoodSent s) :
    ∃ a t, s = a :: t ∧ rust_is_whitespace a = false := by
  obtain ⟨hne, htrim⟩ := h
  have h2 := trim_head_not_ws s (by rw [htrim]; exact hne)
  rwa [htrim] at h2

/-- A `GoodSent` ends with a non-whitespace character. -/
theorem good_last (s : List Char) (h : GoodSent s) :
    ∃ t b, s = t ++ [b] ∧ rust_is_whitespace b = false := by
  obtain ⟨hne, htrim⟩ := h
  have h2 := trim_last_not_ws s (by rw [htrim]; exact hne)
  rwa [htrim] at h2

/-- Every processed sentence produced by `sentencesOf` is non-empty and
trim-invariant: it is a trimmed non-empty piece with `'.'` appended. -/
theorem sentences_good (text : List Char) : ∀ s ∈ sentencesOf text, GoodSent s := by
  intro s hs
  unfold sentencesOf at hs
  rw [List.mem_map] at hs
  obtain ⟨t, ht, rfl⟩ := hs
  rw [List.mem_filter] at ht
  obtain ⟨htm, htne⟩ := ht
  rw [List.mem_map] at htm
  obtain ⟨p, -, rfl⟩ := htm
  have hne : trim_chars p ≠ [] := by simpa using htne
  apply good_of_ends
  · obtain ⟨a, t', heq, ha⟩ := trim_head_not_ws p hne
    exact ⟨a, t' ++ ['.'], by rw [heq, List.cons_append], ha⟩
  · exact ⟨trim_chars p, '.', rfl, by decide⟩

/-- Unfolding `space_join` on a two-or-more element list. -/
theorem space_join_cons_cons (x y : List Char) (t : List (List Char)) :
    space_join (x :: y :: t) = x ++ ' ' :: space_join (y :: t) := rfl

/-- Appending one more sentence to a non-empty run extends the join with
a space and the sentence, exactly as the loop extends `current_chunk`. -/
theorem space_join_concat (g : List (List Char)) (s : List Char) (hg : g ≠ []) :
    space_join (g ++ [s]) = space_join g ++ ' ' :: s := by
  induction g with
  | nil => exact absurd rfl hg
  | cons x rest ih =>
    cases rest with
    | nil => rfl
    | cons y t =>
      have ihr := ih (by simp)
      simp only [List.cons_append] at ihr ⊢
      rw [space_join_cons_cons x y (t ++ [s]), ihr, space_join_cons_cons x y t]
      simp

/-- The space-join of a non-empty run of good sentences is itself a good
sentence (non-empty, trim-invariant). -/
theorem good_space_join :
    ∀ (g : List (List Char)), g ≠ [] → (∀ s ∈ g, GoodSent s) →
      GoodSent (space_join g) := by
  intro g
  induction g with
  | nil => intro hg _; exact absurd rfl hg
  | cons x rest ih =>
    intro _ hall
    cases rest with
    | nil => exact hall x (by simp)
    | cons y t =>
      have hx := hall x (by simp)
      have hj := ih (by simp) (fun s hs => hall s (by simp [hs]))
      apply good_of_ends
      · obtain ⟨a, t', heq, ha⟩ := good_head x hx
        refine ⟨a, t' ++ ' ' :: space_join (y :: t), ?_, ha⟩
        rw [space_join_cons_cons, heq, List.cons_append]
      · obtain ⟨t2, b, heq, hb⟩ := good_last (space_join (y :: t)) hj
        refine ⟨x ++ ' ' :: t2, b, ?_, hb⟩
        rw [space_join_cons_cons, heq]
        simp [List.append_assoc]

/-- `space_join` of the empty run. -/
theorem space_join_nil : space_join [] = [] := rfl

/-- `space_join` of a one-sentence run. -/
theorem space_join_singleton (s : List Char) : space_join [s] = s := rfl

/-- The invariant of the chunking loop: started on chunks that are the
joins of sentence runs `groups` and a current chunk that is the join of
the pending run `pend`, the loop produces exactly the joins of `groups`
extended by further non-empty runs that partition `pend ++ sents` in
order — no sentence is ever split across chunks. -/
theorem chunk_loop_spec :
    ∀ (sents : List (List Char)) (groups : List (List (List Char)))
      (pend : List (List Char)),
      (∀ s ∈ sents, GoodSent s) →
      (∀ s ∈ pend, GoodSent s) →
      ∃ tail, chunk_loop sents (groups.map space_join) (space_join pend) =
          (groups ++ tail).map space_join ∧
        tail.flatten = pend ++ sents ∧
        (∀ g ∈ tail, g ≠ []) := by
  intro sents
  induction sents with
  | nil =>
    intro groups pend _ hpend
    by_cases hp : pend = []
    · subst hp
      refine ⟨[], ?_, rfl, by simp⟩
      rw [chunk_loop]
      simp only [space_join_nil, if_true]
      simp
    · have hgj := good_space_join pend hp hpend
      refine ⟨[pend], ?_, by simp, by simp [hp]⟩
      rw [chunk_loop, if_neg hgj.1, hgj.2]
      simp
  | cons s rest ih =>
    intro groups pend hsents hpend
    have hsg : GoodSent s := hsents s (by simp)
    have hrest : ∀ x ∈ rest, GoodSent x := fun x hx => hsents x (by simp [hx])
    have hsgood : ∀ x ∈ [s], GoodSent x := by
      intro x hx; simp at hx; subst hx; exact hsg
    simp only [chunk_loop]
    by_cases hlen1 : s.length > 500
    · rw [if_pos hlen1]
      by_cases hp : pend = []
      · subst hp
        simp only [space_join_nil, if_true]
        have hmaps : List.map space_join groups ++ [s] =
            (groups ++ [[s]]).map space_join := by
          simp [space_join_singleton]
        rw [hmaps, show ([] : List Char) = space_join [] from rfl]
        obtain ⟨tail, h1, h2, h3⟩ := ih (groups ++ [[s]]) [] hrest (by simp)
        refine ⟨[s] :: tail, ?_, ?_, ?_⟩
        · exact h1.trans (by simp)
        · simp [h2]
        · intro g hg
          rcases List.mem_cons.mp hg with rfl | hg
          · simp
          · exact h3 g hg
      · have hgj := good_space_join pend hp hpend
        rw [if_neg hgj.1, hgj.2]
        have hmaps : List.map space_join groups ++ [space_join pend] ++ [s] =
            (groups ++ [pend] ++ [[s]]).map space_join := by
          simp [space_join_singleton]
        rw [hmaps, show ([] : List Char) = space_join [] from rfl]
        obtain ⟨tail, h1, h2, h3⟩ := ih (groups ++ [pend] ++ [[s]]) [] hrest (by simp)
        refine ⟨pend :: [s] :: tail, ?_, ?_, ?_⟩
        · exact h1.trans (by simp)
        · simp [h2]
        · intro g hg
          rcases List.mem_cons.mp hg with rfl | hg
          · exact hp
          · rcases List.mem_cons.mp hg with rfl | hg
            · simp
            · exact h3 g hg
    · rw [if_neg hlen1]
      by_cases hlen2 : (space_join pend).length + s.length + 1 > 500
      · rw [if_pos hlen2]
        by_cases hp : pend = []
        · subst hp
          simp only [space_join_nil, if_true]
          obtain ⟨tail, h1, h2, h3⟩ := ih groups [s] hrest hsgood
          exact ⟨tail, h1, by simpa using h2, h3⟩
        · have hgj := good_space_join pend hp hpend
          rw [if_neg hgj.1, hgj.2]
          have hmaps : List.map space_join groups ++ [space_join pend] =
              (groups ++ [pend]).map space_join := by simp
          rw [hmaps]
          obtain ⟨tail, h1, h2, h3⟩ := ih (groups ++ [pend]) [s] hrest hsgood
          refine ⟨pend :: tail, ?_, ?_, ?_⟩
          · exact h1.trans (by simp)
          · simp [h2]
          · intro g hg
            rcases List.mem_cons.mp hg with rfl | hg
            · exact hp
            · exact h3 g hg
      · rw [if_neg hlen2]
        by_cases hp : pend = []
        · subst hp
          simp only [space_join_nil, if_true]
          obtain ⟨tail, h1, h2, h3⟩ := ih groups [s] hrest hsgood
          exact ⟨tail, h1, by simpa using h2, h3⟩
        · have hgj := good_space_join pend hp hpend
          rw [if_neg hgj.1, ← space_join_concat pend s hp]
          have hpends : ∀ x ∈ pend ++ [s], GoodSent x := by
            intro x hx
            rcases List.mem_append.mp hx with hx | hx
            · exact hpend x hx
            · simp at hx; subst hx; exact hsg
          obtain ⟨tail, h1, h2, h3⟩ := ih groups (pend ++ [s]) hrest hpends
          refine ⟨tail, h1, ?_, h3⟩
          rw [h2]
          simp

/-- A list of non-empty runs with empty concatenation is empty. -/
theorem flatten_nil_all_ne (gs : List (List (List Char)))
    (hne : ∀ g ∈ gs, g ≠ []) (h : gs.flatten = []) : gs = [] := by
  cases gs with
  | nil => rfl
  | cons g t =>
    exfalso
    rw [List.flatten_cons] at h
    rcases List.append_eq_nil.mp h with ⟨hg, -⟩
    exact hne g (by simp) hg

/-- A list of non-empty runs whose concatenation is a single sentence is
the single run holding that sentence. -/
theorem flatten_eq_singleton (gs : List (List (List Char))) (x : List Char)
    (hne : ∀ g ∈ gs, g ≠ []) (h : gs.flatten = [x]) : gs = [[x]] := by
  cases gs with
  | nil => simp at h
  | cons g t =>
    rw [List.flatten_cons] at h
    cases g with
    | nil => exact absurd rfl (hne [] (by simp))
    | cons y g2 =>
      rw [List.cons_append] at h
      injection h with h1 h2
      subst h1
      rcases List.append_eq_nil.mp h2 with ⟨rfl, h3⟩
      have ht : t = [] := flatten_nil_all_ne t (fun g hg => hne g (by simp [hg])) h3
      subst ht
      rfl

set_option maxRecDepth 100000 in
/-- C9 counterexample: `c9_bad_text` has exactly 501 characters and
splits into two sentences, yet `chunk_text` produces a single chunk —
the two inter-sentence spaces are trimmed away, so the two processed
sentences (299 + 200 characters) joined by one space fit the 500-char
limit.  This contradicts "a text of 501 characters split across two
sentences becomes at least two chunks". -/
theorem c9_counterexample_501 :
    c9_bad_text.length = 501 ∧
    (sentencesOf c9_bad_text).length = 2 ∧
    (chunk_text c9_bad_text).length = 1 := by
  refine ⟨by decide, by decide, by decide⟩

/-- C9 (amended): (a) a text forming a single sentence becomes exactly
that one chunk (in particular a 500-character single-sentence text is one
chunk); (b) a text of two sentences whose processed lengths sum to at
least 500 becomes exactly two chunks — this covers a 501-character text
whose two sentences are separated by a single space and which ends in a
terminator, but NOT every 501-character two-sentence text, since trimmed
inter-sentence whitespace can make the two sentences fit one chunk;
(c) chunks never split a sentence: every chunk is the space-join of a
non-empty run of consecutive processed sentences (or, when the text
contains no sentence at all, the original text as one fallback chunk). -/
theorem c9_chunking_amended (text : List Char) :
    (∀ s, sentencesOf text = [s] → chunk_text text = [s]) ∧
    (∀ s1 s2, sentencesOf text = [s1, s2] → 500 ≤ s1.length + s2.length →
      (chunk_text text).length = 2) ∧
    ((∃ groups : List (List (List Char)),
        chunk_text text = groups.map space_join ∧
        groups.flatten = sentencesOf text ∧ ∀ g ∈ groups, g ≠ []) ∨
      chunk_text text = [text]) := by
  obtain ⟨tail, h1, h2, h3⟩ :=
    chunk_loop_spec (sentencesOf text) [] [] (sentences_good text) (by simp)
  rw [List.nil_append] at h1 h2
  rw [space_join_nil] at h1
  have hcl : chunk_loop (sentencesOf text) [] [] = tail.map space_join := by
    simpa using h1
  refine ⟨?_, ?_, ?_⟩
  · -- (a) single sentence
    intro s hsent
    have h2s : tail.flatten = [s] := by rw [h2, hsent]
    have htail : tail = [[s]] := flatten_eq_singleton tail s h3 h2s
    have hcs : chunk_loop (sentencesOf text) [] [] = [s] := by
      rw [hcl, htail, List.map_singleton, space_join_singleton]
    simp only [chunk_text]
    rw [hcs, if_neg (by simp)]
  · -- (b) two sentences with combined length ≥ 500
    intro s1 s2 hsent hlen
    have hg1 : GoodSent s1 := sentences_good text s1 (by rw [hsent]; simp)
    have hg2 : GoodSent s2 := sentences_good text s2 (by rw [hsent]; simp)
    have hne1 : s1 ≠ [] := hg1.1
    have hne2 : s2 ≠ [] := hg2.1
    have hcs : (chunk_loop (sentencesOf text) [] []).length = 2 := by
      rw [hsent]
      simp only [chunk_loop]
      split_ifs <;> simp_all <;> omega
    simp only [chunk_text]
    rw [if_neg ?hne]
    case hne =>
      intro hcon
      rw [hcon.1] at hcs
      simp at hcs
    exact hcs
  · -- (c) no sentence is split across chunks
    by_cases hc : chunk_loop (sentencesOf text) [] [] = [] ∧ text ≠ []
    · right
      simp only [chunk_text]
      rw [if_pos hc]
    · left
      refine ⟨tail, ?_, h2, h3⟩
      simp only [chunk_text]
      rw [if_neg hc]
      exact hcl

set_option maxRecDepth 100000 in
/-- Witness for the amended C9: a one-sentence text becomes its single
chunk, and a 502-character text of two single-space-separated sentences
(processed lengths 301 + 200 ≥ 500) becomes exactly two chunks. -/
theorem c9_witness :
    (sentencesOf "Hello world.".toList = ["Hello world.".toList] ∧
      chunk_text "Hello world.".toList = ["Hello world.".toList]) ∧
    (sentencesOf c9_two_sentence_text =
        [List.replicate 300 'a' ++ ['.'], List.replicate 199 'b' ++ ['.']] ∧
      500 ≤ (List.replicate 300 'a' ++ ['.']).length +
        (List.replicate 199 'b' ++ ['.']).length ∧
      (chunk_text c9_two_sentence_text).length = 2) :=
  ⟨⟨by decide, (c9_chunking_amended "Hello world.".toList).1 _ (by decide)⟩,
   ⟨by decide, by decide,
    (c9_chunking_amended c9_two_sentence_text).2.1
      (List.replicate 300 'a' ++ ['.']) (List.replicate 199 'b' ++ ['.'])
      (by decide) (by decide)⟩⟩
